import Mathlib

/-!
# Verification of the tvclipboard connection hub and token subsystem

Shallow embedding of the Go sources of `akitaonrails/tvclipboard`:
* `pkg/qrcode/qrcode.go` (hub section): `Hub`, `Client`, `Hub.Run`
  (register / unregister / broadcast cases), `Client.checkRateLimit`,
  `Client.ReadPump`, and the read accessors.
* `pkg/token/token.go`: the AES-GCM-sealed `TokenManager`
  (`GenerateToken` / `ValidateToken` / `encryptToken` / `decryptToken`).
* the capacity-bounded `TokenManager` variant (`generateRandomID`,
  FIFO `tokenOrder`, `maxTokens` eviction loop).

Conventions used throughout:
* Go `map[string]*Client` is embedded as an association list whose keys are
  the client ids; map insertion replaces the first entry with the same key
  (Go map assignment), map iteration order is resolved to list order.
* Channel queues are lists bounded by an explicit capacity; a non-blocking
  send (`select … default`) succeeds exactly when `length < capacity`.
* Times are natural numbers (the hub in milliseconds, token timestamps in
  seconds); Go's signed duration comparison `time.Since(t) ≥ d` with `d ≥ 0`
  coincides with truncated `Nat` subtraction `now - t ≥ d`.
-/

namespace Hub

/-- Wire message envelope (`hub.Message`, serialized): the hub only ever
constructs `role` envelopes itself; relayed and error payloads are kept
abstract as strings. -/
inductive Msg where
  | roleMsg (role : String)
  | payload (data : String)
  deriving DecidableEq, Repr

/-- `hub.Client`: connection id, outbound queue (`Send` channel contents)
with its capacity, and the mobile flag.  The rate-limit fields live in the
read-pump model below; the `closed` flag only guards double-close of the
channel and has no observable effect on membership. -/
structure Client where
  id : String
  send : List Msg
  cap : Nat
  mobile : Bool
  deriving DecidableEq, Repr

/-- `hub.Hub`: membership table (association by `Client.id`), current host
id (`""` = none), and the configuration fields. -/
structure HubState where
  clients : List Client
  hostID : String
  maxMessageSize : Nat
  rateLimitPerSec : Nat
  deriving DecidableEq, Repr

/-- `NewHub`: empty membership, no host. -/
def newHub (maxMessageSize rateLimitPerSec : Nat) : HubState :=
  { clients := [], hostID := "", maxMessageSize := maxMessageSize,
    rateLimitPerSec := rateLimitPerSec }

/-- Non-blocking channel send (`select { case c.Send <- m: … default: … }`):
enqueue when the buffered channel has room, otherwise drop. -/
def tryEnqueue (m : Msg) (c : Client) : Client :=
  if c.send.length < c.cap then { c with send := c.send ++ [m] } else c

/-- Go map assignment `h.clients[c.ID] = c`: replace the entry with the same
key if present, otherwise add the new entry. -/
def insertClient (c : Client) : List Client → List Client
  | [] => [c]
  | x :: xs => if x.id = c.id then c :: xs else x :: insertClient c xs

/-- Go map `delete(h.clients, id)`: remove the entry with the given key. -/
def removeClient (cid : String) : List Client → List Client
  | [] => []
  | x :: xs => if x.id = cid then xs else x :: removeClient cid xs

/-- Go map membership `_, ok := h.clients[id]`. -/
def containsClient (cid : String) (l : List Client) : Bool :=
  l.any fun x => x.id = cid

/-- `Hub.Run`, register case: insert the client, make it host if no host is
assigned, and attempt a non-blocking send of its `role` envelope (skipped
when its queue is full). -/
def registerStep (h : HubState) (c : Client) : HubState :=
  let hostID' := if h.hostID = "" then c.id else h.hostID
  let role := if c.id = hostID' then "host" else "client"
  let c' := tryEnqueue (Msg.roleMsg role) c
  { h with clients := insertClient c' h.clients, hostID := hostID' }

/-- `Hub.Run`, unregister case: if the id is registered, remove it (and
close its queue); if it was the host, clear the host id and promote the
first remaining client (Go iterates the map in unspecified order — the
model resolves the choice to the head of the list), attempting a
non-blocking `role` envelope to the promoted client. -/
def unregisterStep (h : HubState) (cid : String) : HubState :=
  if containsClient cid h.clients then
    let clients' := removeClient cid h.clients
    if cid = h.hostID then
      match clients' with
      | [] => { h with clients := [], hostID := "" }
      | c :: rest =>
          { h with clients := tryEnqueue (Msg.roleMsg "host") c :: rest,
                   hostID := c.id }
    else { h with clients := clients' }
  else h

/-- Broadcast treatment of one membership entry (`Hub.Run`, broadcast case,
loop body): the sender is skipped (kept unchanged), another client gets a
non-blocking enqueue, and a client whose queue is full is closed and
deleted from membership (`none`). -/
def bcastClient (m : Msg) (senderID : String) (c : Client) : Option Client :=
  if c.id = senderID then some c
  else if c.send.length < c.cap then some { c with send := c.send ++ [m] }
  else none

/-- `Hub.Run`, broadcast case: every client except the sender gets a
non-blocking enqueue of the message; a client whose queue is full is
closed and deleted from membership instead.  The host id is not touched. -/
def broadcastStep (h : HubState) (m : Msg) (senderID : String) : HubState :=
  { h with clients := h.clients.filterMap (bcastClient m senderID) }

/-- `Hub.ClientCount`. -/
def clientCount (h : HubState) : Nat := h.clients.length

/-- `Hub.HasHost`. -/
def hasHost (h : HubState) : Bool := h.hostID ≠ ""

/-- Hub states reachable from `NewHub` by any finite sequence of the three
`Hub.Run` mutation cases.  Client ids come from `uuid.New().String()` and
are never empty. -/
inductive Reachable : HubState → Prop where
  | init (maxMessageSize rateLimitPerSec : Nat) :
      Reachable (newHub maxMessageSize rateLimitPerSec)
  | reg {h : HubState} (c : Client) : Reachable h → c.id ≠ "" →
      Reachable (registerStep h c)
  | unreg {h : HubState} (cid : String) : Reachable h →
      Reachable (unregisterStep h cid)
  | bcast {h : HubState} (m : Msg) (senderID : String) : Reachable h →
      Reachable (broadcastStep h m senderID)

/-- The membership keys of a hub state. -/
def idsOf (h : HubState) : List String := h.clients.map Client.id

/-- Number of registered connections currently designated by the host id. -/
def hostHolders (h : HubState) : Nat :=
  (h.clients.filter fun c => c.id = h.hostID).length

theorem id_tryEnqueue (m : Msg) (c : Client) : (tryEnqueue m c).id = c.id := by
  unfold tryEnqueue; split <;> rfl

theorem mem_ids_insertClient {a : String} {c : Client} {l : List Client}
    (h : a ∈ (insertClient c l).map Client.id) :
    a = c.id ∨ a ∈ l.map Client.id := by
  induction l with
  | nil => simpa [insertClient] using h
  | cons x xs ih =>
    by_cases hx : x.id = c.id
    · simp only [insertClient, if_pos hx, List.map_cons, List.mem_cons] at h
      rcases h with h | h
      · exact Or.inl h
      · exact Or.inr (by simp [h])
    · simp only [insertClient, if_neg hx, List.map_cons, List.mem_cons] at h
      rcases h with h | h
      · exact Or.inr (by simp [h])
      · rcases ih h with h1 | h1
        · exact Or.inl h1
        · exact Or.inr (by simp [h1])

theorem nodup_insertClient {c : Client} {l : List Client}
    (h : (l.map Client.id).Nodup) :
    ((insertClient c l).map Client.id).Nodup := by
  induction l with
  | nil => simp [insertClient]
  | cons x xs ih =>
    simp only [List.map_cons, List.nodup_cons] at h
    by_cases hx : x.id = c.id
    · simp only [insertClient, if_pos hx, List.map_cons, List.nodup_cons]
      exact ⟨hx ▸ h.1, h.2⟩
    · simp only [insertClient, if_neg hx, List.map_cons, List.nodup_cons]
      refine ⟨fun hmem => ?_, ih h.2⟩
      rcases mem_ids_insertClient hmem with h1 | h1
      · exact hx h1
      · exact h.1 h1

theorem ids_removeClient_sublist (cid : String) (l : List Client) :
    ((removeClient cid l).map Client.id).Sublist (l.map Client.id) := by
  induction l with
  | nil => simp [removeClient]
  | cons x xs ih =>
    by_cases hx : x.id = cid
    · simpa only [removeClient, if_pos hx, List.map_cons] using
        (List.sublist_cons_self x.id (xs.map Client.id))
    · simpa only [removeClient, if_neg hx, List.map_cons] using ih.cons₂ x.id

theorem id_bcastClient {m : Msg} {sid : String} {c c' : Client}
    (h : bcastClient m sid c = some c') : c'.id = c.id := by
  unfold bcastClient at h
  split at h
  · cases h; rfl
  · split at h
    · cases h; rfl
    · cases h

theorem ids_bcast_sublist (m : Msg) (sid : String) (l : List Client) :
    ((l.filterMap (bcastClient m sid)).map Client.id).Sublist
      (l.map Client.id) := by
  induction l with
  | nil => simp
  | cons x xs ih =>
    rw [List.filterMap_cons]
    cases hfx : bcastClient m sid x with
    | none => exact ih.trans (List.sublist_cons_self x.id (xs.map Client.id))
    | some y =>
      simpa only [List.map_cons, id_bcastClient hfx] using ih.cons₂ x.id

/-- Well-formedness of the membership table: client ids are pairwise
distinct (Go map keys) and never empty (`uuid.New().String()`). -/
def WFIds (h : HubState) : Prop := (idsOf h).Nodup ∧ "" ∉ idsOf h

theorem ids_unregisterStep (h : HubState) (cid : String) :
    idsOf (unregisterStep h cid) = (removeClient cid h.clients).map Client.id
      ∨ unregisterStep h cid = h := by
  unfold unregisterStep
  by_cases hc : containsClient cid h.clients
  · simp only [hc, if_true]
    by_cases hh : cid = h.hostID
    · simp only [hh, if_pos rfl]
      cases hrem : removeClient h.hostID h.clients with
      | nil => left; simp [idsOf, hrem]
      | cons c rest =>
          left
          simp [idsOf, hrem, id_tryEnqueue]
    · simp only [if_neg hh]
      left; rfl
  · simp only [hc, if_false]
    right; rfl

theorem reachable_wf {h : HubState} (hr : Reachable h) : WFIds h := by
  induction hr with
  | init maxB limit => exact ⟨by simp [idsOf, newHub], by simp [idsOf, newHub]⟩
  | reg c hr hne ih =>
      obtain ⟨hnd, hnm⟩ := ih
      constructor
      · simpa [registerStep, idsOf] using nodup_insertClient (c := _) hnd
      · intro hmem
        simp only [registerStep, idsOf] at hmem
        rcases mem_ids_insertClient hmem with h1 | h1
        · exact hne (by simpa [id_tryEnqueue] using h1.symm)
        · exact hnm h1
  | unreg cid hr ih =>
      obtain ⟨hnd, hnm⟩ := ih
      rcases ids_unregisterStep _ cid with heq | heq
      · rw [WFIds, heq]
        exact ⟨hnd.sublist (ids_removeClient_sublist cid _),
          fun hm => hnm ((ids_removeClient_sublist cid _).subset hm)⟩
      · rw [heq]; exact ⟨hnd, hnm⟩
  | bcast m sid hr ih =>
      obtain ⟨hnd, hnm⟩ := ih
      exact ⟨hnd.sublist (ids_bcast_sublist m sid _),
        fun hm => hnm ((ids_bcast_sublist m sid _).subset hm)⟩

theorem length_filter_id_le_one {l : List Client}
    (hnd : (l.map Client.id).Nodup) (x : String) :
    (l.filter fun c => c.id = x).length ≤ 1 := by
  induction l with
  | nil => simp
  | cons c cs ih =>
    simp only [List.map_cons, List.nodup_cons] at hnd
    by_cases hc : c.id = x
    · have hnil : (cs.filter fun c' => c'.id = x) = [] := by
        refine List.filter_eq_nil_iff.mpr fun c' hmem => ?_
        simp only [decide_eq_true_eq]
        intro hx
        exact hnd.1 (hc ▸ hx ▸ List.mem_map_of_mem Client.id hmem)
      simp [List.filter_cons, hc, hnil]
    · simpa [List.filter_cons, hc] using ih hnd.2

theorem hostHolders_empty {h : HubState} (hnm : "" ∉ idsOf h)
    (he : h.hostID = "") : hostHolders h = 0 := by
  unfold hostHolders
  rw [List.length_eq_zero]
  refine List.filter_eq_nil_iff.mpr fun c hmem => ?_
  simp only [decide_eq_true_eq]
  intro hx
  exact hnm (by simpa [idsOf, he ▸ hx] using List.mem_map_of_mem Client.id hmem)

/-- **C1** In every hub state reachable from the initial empty hub by
`Register`, `Unregister`, and `Broadcast` operations, at most one
registered connection holds the host role (its id equals the hub's host
id); when the host id is empty, no registered connection holds it. -/
theorem hub_at_most_one_host {h : HubState} (hr : Reachable h) :
    hostHolders h ≤ 1 ∧ (h.hostID = "" → hostHolders h = 0) := by
  obtain ⟨hnd, hnm⟩ := reachable_wf hr
  exact ⟨length_filter_id_le_one hnd h.hostID, hostHolders_empty hnm⟩

/-- Witness for `hub_at_most_one_host` at a concrete reachable state
(one registration into a fresh hub). -/
theorem hub_at_most_one_host_witness :
    Reachable (registerStep (newHub 1024 4)
        { id := "a", send := [], cap := 256, mobile := false }) ∧
      hostHolders (registerStep (newHub 1024 4)
        { id := "a", send := [], cap := 256, mobile := false }) ≤ 1 ∧
      ((registerStep (newHub 1024 4)
        { id := "a", send := [], cap := 256, mobile := false }).hostID = "" →
        hostHolders (registerStep (newHub 1024 4)
          { id := "a", send := [], cap := 256, mobile := false }) = 0) :=
  ⟨Reachable.reg _ (Reachable.init 1024 4) (by decide),
    hub_at_most_one_host
      (Reachable.reg _ (Reachable.init 1024 4) (by decide))⟩

theorem filter_sender_filterMap_bcast (m : Msg) (sid : String)
    (l : List Client) :
    ((l.filterMap (bcastClient m sid)).filter fun c => c.id = sid) =
      l.filter fun c => c.id = sid := by
  induction l with
  | nil => rfl
  | cons c cs ih =>
    by_cases hc : c.id = sid
    · simp [List.filterMap_cons, bcastClient, hc, List.filter_cons, ih]
    · by_cases hroom : c.send.length < c.cap
      · simp [List.filterMap_cons, bcastClient, hc, hroom, List.filter_cons, ih]
      · simp [List.filterMap_cons, bcastClient, hc, hroom, ih]

/-- **C2** For every `Broadcast(m, senderID)` processed by the hub, the
membership entries whose id equals the sender's are left entirely
unchanged: the message is never enqueued onto the sender's own outbound
queue. -/
theorem broadcast_never_self_enqueues (h : HubState) (m : Msg)
    (senderID : String) :
    ((broadcastStep h m senderID).clients.filter fun c => c.id = senderID) =
      h.clients.filter fun c => c.id = senderID :=
  filter_sender_filterMap_bcast m senderID h.clients

/-- A membership entry that broadcast will forcibly remove: a non-sender
whose outbound queue is at capacity. -/
def isFullNonSender (sid : String) (c : Client) : Bool :=
  c.id ≠ sid && c.cap ≤ c.send.length

theorem length_filterMap_bcast (m : Msg) (sid : String) (l : List Client) :
    (l.filterMap (bcastClient m sid)).length =
      l.length - (l.filter (isFullNonSender sid)).length := by
  induction l with
  | nil => rfl
  | cons c cs ih =>
    have hle := List.length_filter_le (isFullNonSender sid) cs
    by_cases hc : c.id = sid
    · have h1 : bcastClient m sid c = some c := by simp [bcastClient, hc]
      have h2 : isFullNonSender sid c = false := by simp [isFullNonSender, hc]
      rw [List.filter_cons_of_neg (by simp [h2]), List.filterMap_cons, h1,
        List.length_cons, List.length_cons, ih]
      omega
    · by_cases hroom : c.send.length < c.cap
      · have h1 : bcastClient m sid c =
            some { c with send := c.send ++ [m] } := by
          simp [bcastClient, hc, hroom]
        have h2 : isFullNonSender sid c = false := by
          simp only [isFullNonSender, Bool.and_eq_false_iff]
          right
          simp only [decide_eq_false_iff_not]
          omega
        rw [List.filter_cons_of_neg (by simp [h2]), List.filterMap_cons, h1,
          List.length_cons, List.length_cons, ih]
        omega
      · have h1 : bcastClient m sid c = none := by
          simp [bcastClient, hc, hroom]
        have h2 : isFullNonSender sid c = true := by
          simp only [isFullNonSender, Bool.and_eq_true, decide_eq_true_eq]
          exact ⟨by simpa using hc, by omega⟩
        rw [List.filter_cons_of_pos (by simp [h2]), List.filterMap_cons, h1,
          List.length_cons, List.length_cons, ih]
        omega

/-- **C8** During `Broadcast`, every recipient whose outbound queue is full
is removed from membership (so `ClientCount` drops by the number of such
recipients — by one in the single-slow-consumer scenario), every recipient
with room receives the message appended to its queue, and no removal of a
slow consumer blocks delivery to the others. -/
theorem broadcast_backpressure (h : HubState) (m : Msg) (senderID : String)
    (hnd : (idsOf h).Nodup) :
    clientCount (broadcastStep h m senderID) =
        clientCount h - (h.clients.filter (isFullNonSender senderID)).length
    ∧ (∀ c ∈ h.clients, c.id ≠ senderID → c.send.length < c.cap →
        { c with send := c.send ++ [m] } ∈ (broadcastStep h m senderID).clients)
    ∧ (∀ c ∈ h.clients, c.id ≠ senderID → c.cap ≤ c.send.length →
        ∀ c' ∈ (broadcastStep h m senderID).clients, c'.id ≠ c.id) := by
  refine ⟨length_filterMap_bcast m senderID h.clients, ?_, ?_⟩
  · intro c hmem hcid hroom
    exact List.mem_filterMap.mpr ⟨c, hmem, by simp [bcastClient, hcid, hroom]⟩
  · intro c hmem hcid hfull c' hmem' heq
    obtain ⟨a, hamem, ha⟩ := List.mem_filterMap.mp hmem'
    have haid : a.id = c.id := (id_bcastClient ha) ▸ heq
    have : a = c := List.inj_on_of_nodup_map hnd hamem hmem haid
    subst this
    rw [bcastClient, if_neg hcid, if_neg (by omega)] at ha
    cases ha

/-- Concrete hub for the backpressure scenario: sender `s`, a client `f`
whose queue is at capacity, and a healthy client `g`. -/
def hubBp : HubState :=
  { clients :=
      [{ id := "s", send := [], cap := 2, mobile := false },
       { id := "f", send := [Msg.payload "old"], cap := 1, mobile := false },
       { id := "g", send := [], cap := 2, mobile := false }],
    hostID := "s", maxMessageSize := 1024, rateLimitPerSec := 4 }

/-- Witness for `broadcast_backpressure` at the concrete hub `hubBp`. -/
theorem broadcast_backpressure_witness :
    (idsOf hubBp).Nodup ∧
    (clientCount (broadcastStep hubBp (Msg.payload "hi") "s") =
        clientCount hubBp - (hubBp.clients.filter (isFullNonSender "s")).length
    ∧ (∀ c ∈ hubBp.clients, c.id ≠ "s" → c.send.length < c.cap →
        { c with send := c.send ++ [Msg.payload "hi"] } ∈
          (broadcastStep hubBp (Msg.payload "hi") "s").clients)
    ∧ (∀ c ∈ hubBp.clients, c.id ≠ "s" → c.cap ≤ c.send.length →
        ∀ c' ∈ (broadcastStep hubBp (Msg.payload "hi") "s").clients,
          c'.id ≠ c.id)) :=
  ⟨by decide, broadcast_backpressure hubBp (Msg.payload "hi") "s" (by decide)⟩

/-! ## The per-connection inbound task (`Client.ReadPump`) -/

/-- Rate-limiter state carried by a `Client` (`lastMessage`,
`messageCount`).  Times are in milliseconds. -/
structure RL where
  lastMessage : Nat
  messageCount : Nat
  deriving DecidableEq, Repr

/-- `Client.checkRateLimit`: if at least one second elapsed since the
window start, accept and reset the window (`count = 1`, window start =
now); otherwise reject if the in-window count already reached the limit;
otherwise accept, increment the count and refresh the window start. -/
def checkRateLimit (st : RL) (now : Nat) (rateLimitPerSec : Nat) :
    Bool × RL :=
  if 1000 ≤ now - st.lastMessage then (true, ⟨now, 1⟩)
  else if rateLimitPerSec ≤ st.messageCount then (false, st)
  else (true, ⟨now, st.messageCount + 1⟩)

/-- One inbound websocket frame: its byte size, arrival time, and whether
it parses as a JSON `Message` (`json.Unmarshal` succeeds). -/
structure Frame where
  size : Nat
  time : Nat
  wellFormed : Bool
  deriving DecidableEq, Repr

/-- Observable actions of the inbound task. -/
inductive Event where
  /-- Error envelope "Message too large…" written directly to the sender. -/
  | errSize
  /-- Error envelope "Rate limit exceeded…" written directly to the sender. -/
  | errRate
  /-- The frame is handed to `Hub.broadcast` (sender excluded there). -/
  | bcast (f : Frame)
  /-- `c.Hub.Unregister <- c` from the deferred teardown. -/
  | unregister
  /-- `c.Conn.Close()` from the deferred teardown. -/
  | close
  deriving DecidableEq, Repr

/-- Body of the `ReadPump` loop for one successfully read frame: the size
policy first (oversized ⇒ error envelope to the sender only, nothing
forwarded, rate state untouched), then the rate policy, then JSON parsing
(malformed frames are dropped silently); an accepted well-formed frame is
broadcast. -/
def processFrame (maxMessageSize rateLimitPerSec : Nat) (st : RL)
    (f : Frame) : RL × List Event :=
  if maxMessageSize < f.size then (st, [Event.errSize])
  else
    match checkRateLimit st f.time rateLimitPerSec with
    | (false, st') => (st', [Event.errRate])
    | (true, st') => if f.wellFormed then (st', [Event.bcast f]) else (st', [])

/-- `Client.ReadPump`: `SetReadLimit(maxMessageSize + 1024)` makes the
transport read fail on any frame above that limit, ending the loop; the
deferred teardown then unregisters the client and closes the transport.
End of input likewise reads as a transport error.  Every successfully read
frame goes through `processFrame`. -/
def readPump (maxMessageSize rateLimitPerSec : Nat) (st : RL) :
    List Frame → List Event
  | [] => [Event.unregister, Event.close]
  | f :: rest =>
      if maxMessageSize + 1024 < f.size then [Event.unregister, Event.close]
      else
        let (st', evs) := processFrame maxMessageSize rateLimitPerSec st f
        evs ++ readPump maxMessageSize rateLimitPerSec st' rest

/-- Number of frames handed to broadcast in a trace. -/
def countBcast (evs : List Event) : Nat :=
  evs.countP fun e => match e with | Event.bcast _ => true | _ => false

/-- Number of rate-limit error envelopes in a trace. -/
def countErrRate (evs : List Event) : Nat :=
  evs.countP fun e => match e with | Event.errRate => true | _ => false

/-- Sliding-window bound: starting from any limiter state, a run of frames
whose times all lie within one second above a common origin `t1` hands at
most `limit` frames to broadcast.  `acc` counts broadcasts already granted
in the current window. -/
theorem run_bcast_bound (maxB limit t1 : Nat) (hL : 1 ≤ limit) :
    ∀ (frames : List Frame) (st : RL) (acc : Nat),
      (∀ f ∈ frames, f.size ≤ maxB ∧ t1 ≤ f.time ∧ f.time - t1 < 1000) →
      acc ≤ limit →
      (1 ≤ acc → acc ≤ st.messageCount ∧ t1 ≤ st.lastMessage) →
      acc + countBcast (readPump maxB limit st frames) ≤ limit := by
  intro frames
  induction frames with
  | nil =>
      intro st acc hf hAL hinv
      simpa [readPump, countBcast] using hAL
  | cons f fs ih =>
      intro st acc hf hAL hinv
      obtain ⟨hsize, ht1, hspan⟩ := hf f (List.mem_cons_self f fs)
      have hf' := fun g hg => hf g (List.mem_cons_of_mem f hg)
      have hnl : ¬ (maxB + 1024 < f.size) := by omega
      have hns : ¬ (maxB < f.size) := by omega
      rw [readPump, if_neg hnl]
      by_cases hr : 1000 ≤ f.time - st.lastMessage
      · have hA0 : acc = 0 := by
          rcases Nat.eq_zero_or_pos acc with h0 | h1
          · exact h0
          · obtain ⟨hc, hlm⟩ := hinv h1; omega
        subst hA0
        simp only [processFrame, if_neg hns, checkRateLimit, if_pos hr]
        by_cases hw : f.wellFormed = true
        · simp only [hw, if_true, List.cons_append, List.nil_append,
            countBcast, List.countP_cons, reduceIte]
          have h2 := ih ⟨f.time, 1⟩ 1 hf' hL
            (fun _ => ⟨le_refl 1, ht1⟩)
          simp only [countBcast] at h2
          omega
        · simp only [hw, if_false, List.nil_append]
          have h2 := ih ⟨f.time, 1⟩ 0 hf' (by omega)
            (fun h => absurd h (by omega))
          simpa using h2
      · by_cases hrej : limit ≤ st.messageCount
        · simp [processFrame, hns, checkRateLimit, hr, hrej,
            countBcast, List.countP_cons]
          have h2 := ih st acc hf' hAL hinv
          simp only [countBcast] at h2
          omega
        · simp only [processFrame, if_neg hns, checkRateLimit, if_neg hr,
            if_neg hrej]
          by_cases hw : f.wellFormed = true
          · simp [hw, countBcast, List.countP_cons]
            have hA1L : acc + 1 ≤ limit := by
              rcases Nat.eq_zero_or_pos acc with h0 | h1
              · omega
              · have := (hinv h1).1; omega
            have hinv' : 1 ≤ acc + 1 →
                acc + 1 ≤ st.messageCount + 1 ∧ t1 ≤ f.time := by
              intro _
              refine ⟨?_, ht1⟩
              rcases Nat.eq_zero_or_pos acc with h0 | h1
              · omega
              · have := (hinv h1).1; omega
            have h2 := ih ⟨f.time, st.messageCount + 1⟩ (acc + 1) hf' hA1L hinv'
            simp only [countBcast] at h2
            omega
          · simp only [hw, if_false, List.nil_append]
            have hinv' : 1 ≤ acc →
                acc ≤ st.messageCount + 1 ∧ t1 ≤ f.time := by
              intro h1
              exact ⟨by have := (hinv h1).1; omega, ht1⟩
            exact ih ⟨f.time, st.messageCount + 1⟩ acc hf' hAL hinv'

/-- Every in-limit, well-formed frame contributes exactly one event:
either a broadcast or a rate-limit error envelope. -/
theorem run_total (maxB limit : Nat) :
    ∀ (frames : List Frame) (st : RL),
      (∀ f ∈ frames, f.size ≤ maxB ∧ f.wellFormed = true) →
      countBcast (readPump maxB limit st frames) +
        countErrRate (readPump maxB limit st frames) = frames.length := by
  intro frames
  induction frames with
  | nil => intro st hf; simp [readPump, countBcast, countErrRate]
  | cons f fs ih =>
      intro st hf
      obtain ⟨hsize, hw⟩ := hf f (List.mem_cons_self f fs)
      have hf' := fun g hg => hf g (List.mem_cons_of_mem f hg)
      have hnl : ¬ (maxB + 1024 < f.size) := by omega
      have hns : ¬ (maxB < f.size) := by omega
      rw [readPump, if_neg hnl]
      by_cases hr : 1000 ≤ f.time - st.lastMessage
      · simp [processFrame, hns, checkRateLimit, hr, hw, countBcast,
          countErrRate, List.countP_cons]
        have h2 := ih ⟨f.time, 1⟩ hf'
        simp only [countBcast, countErrRate] at h2
        omega
      · by_cases hrej : limit ≤ st.messageCount
        · simp [processFrame, hns, checkRateLimit, hr, hrej, countBcast,
            countErrRate, List.countP_cons]
          have h2 := ih st hf'
          simp only [countBcast, countErrRate] at h2
          omega
        · simp [processFrame, hns, checkRateLimit, hr, hrej, hw, countBcast,
            countErrRate, List.countP_cons]
          have h2 := ih ⟨f.time, st.messageCount + 1⟩ hf'
          simp only [countBcast, countErrRate] at h2
          omega

/-- **C5** The rate limiter: a frame arriving at least one second after the
window start is accepted with the window reset (`count = 1`); inside the
window a frame is rejected once the count reached the limit (error
envelope to the sender, loop continues with the same limiter state,
nothing broadcast) and accepted otherwise with the count incremented and
the window start refreshed.  Consequently with limit 2/sec, of five
well-formed in-size frames within 100 ms of a common origin at most two
are broadcast and the sender receives at least one rate-limit error
envelope. -/
theorem rate_limit_policy_and_scenario :
    (∀ (st : RL) (now limit : Nat),
        (1000 ≤ now - st.lastMessage →
          checkRateLimit st now limit = (true, ⟨now, 1⟩)) ∧
        (now - st.lastMessage < 1000 → limit ≤ st.messageCount →
          checkRateLimit st now limit = (false, st)) ∧
        (now - st.lastMessage < 1000 → st.messageCount < limit →
          checkRateLimit st now limit = (true, ⟨now, st.messageCount + 1⟩)))
    ∧ (∀ (maxB limit : Nat) (st : RL) (f : Frame) (fs : List Frame),
        f.size ≤ maxB → f.time - st.lastMessage < 1000 →
        limit ≤ st.messageCount →
        readPump maxB limit st (f :: fs) =
          Event.errRate :: readPump maxB limit st fs)
    ∧ (∀ (maxB t1 : Nat) (st : RL) (frames : List Frame),
        frames.length = 5 →
        (∀ f ∈ frames, f.size ≤ maxB ∧ f.wellFormed = true ∧
          t1 ≤ f.time ∧ f.time - t1 ≤ 100) →
        countBcast (readPump maxB 2 st frames) ≤ 2 ∧
        1 ≤ countErrRate (readPump maxB 2 st frames)) := by
  refine ⟨?_, ?_, ?_⟩
  · intro st now limit
    refine ⟨fun h => ?_, fun h1 h2 => ?_, fun h1 h2 => ?_⟩
    · rw [checkRateLimit, if_pos h]
    · rw [checkRateLimit, if_neg (by omega), if_pos h2]
    · rw [checkRateLimit, if_neg (by omega), if_neg (by omega)]
  · intro maxB limit st f fs hsize hwin hcount
    rw [readPump, if_neg (by omega : ¬ (maxB + 1024 < f.size))]
    simp only [processFrame, if_neg (by omega : ¬ (maxB < f.size)),
      checkRateLimit,
      if_neg (by omega : ¬ (1000 ≤ f.time - st.lastMessage)),
      if_pos hcount, List.cons_append, List.nil_append]
  · intro maxB t1 st frames hlen hf
    have hb : countBcast (readPump maxB 2 st frames) ≤ 2 := by
      have := run_bcast_bound maxB 2 t1 (by omega) frames st 0
        (fun f hm => ⟨(hf f hm).1, (hf f hm).2.2.1, by
          have := (hf f hm).2.2.2; omega⟩)
        (by omega) (fun h => absurd h (by omega))
      omega
    have ht := run_total maxB 2 frames st
      (fun f hm => ⟨(hf f hm).1, (hf f hm).2.1⟩)
    exact ⟨hb, by omega⟩

/-- Five frames 10 ms apart, all well-formed and small. -/
def framesRate : List Frame :=
  [⟨10, 2000, true⟩, ⟨10, 2010, true⟩, ⟨10, 2020, true⟩,
   ⟨10, 2030, true⟩, ⟨10, 2040, true⟩]

/-- Witness for `rate_limit_policy_and_scenario` (scenario part) at five
concrete frames sent within 100 ms. -/
theorem rate_limit_policy_witness :
    framesRate.length = 5 ∧
    (∀ f ∈ framesRate, f.size ≤ 1024 ∧ f.wellFormed = true ∧
      2000 ≤ f.time ∧ f.time - 2000 ≤ 100) ∧
    countBcast (readPump 1024 2 ⟨0, 0⟩ framesRate) ≤ 2 ∧
    1 ≤ countErrRate (readPump 1024 2 ⟨0, 0⟩ framesRate) :=
  ⟨rfl, by decide,
    rate_limit_policy_and_scenario.2.2 1024 2000 ⟨0, 0⟩ framesRate rfl
      (by decide)⟩

/-- **C6** Size policy: a frame larger than the configured maximum (but
within the transport read limit) is answered with a size-violation error
envelope to the sender only, is not broadcast, does not touch the limiter
state, and the loop continues; in particular with a 1024-byte maximum a
2048-byte frame yields exactly the error envelope and a subsequent valid
frame is still broadcast. -/
theorem oversize_frame_policy :
    (∀ (maxB limit : Nat) (st : RL) (f : Frame) (fs : List Frame),
        maxB < f.size → f.size ≤ maxB + 1024 →
        readPump maxB limit st (f :: fs) =
          Event.errSize :: readPump maxB limit st fs)
    ∧ (∀ (limit : Nat) (st : RL) (f g : Frame),
        f.size = 2048 → g.size ≤ 1024 → g.wellFormed = true →
        (checkRateLimit st g.time limit).1 = true →
        readPump 1024 limit st [f, g] =
          [Event.errSize, Event.bcast g, Event.unregister, Event.close]) := by
  constructor
  · intro maxB limit st f fs hbig hlim
    rw [readPump, if_neg (by omega)]
    simp only [processFrame, if_pos hbig, List.cons_append, List.nil_append]
  · intro limit st f g hf hg hw hrate
    rw [readPump, if_neg (by omega)]
    simp only [processFrame, if_pos (by omega : (1024 : Nat) < f.size),
      List.cons_append, List.nil_append]
    rw [readPump, if_neg (by omega)]
    rcases hcr : checkRateLimit st g.time limit with ⟨b, st'⟩
    rw [hcr] at hrate
    simp only at hrate
    subst hrate
    simp only [processFrame, if_neg (by omega : ¬ ((1024 : Nat) < g.size)),
      hcr, hw, if_true, List.cons_append, List.nil_append]
    rw [readPump]

/-- Witness for `oversize_frame_policy` (scenario part): a 2048-byte frame
then a 100-byte well-formed frame against a fresh limiter. -/
theorem oversize_frame_policy_witness :
    ((2048 : Nat) = 2048 ∧ (100 : Nat) ≤ 1024 ∧
      (checkRateLimit ⟨0, 0⟩ 5 4).1 = true) ∧
    readPump 1024 4 ⟨0, 0⟩ [⟨2048, 3, true⟩, ⟨100, 5, true⟩] =
      [Event.errSize, Event.bcast ⟨100, 5, true⟩, Event.unregister,
        Event.close] :=
  ⟨⟨rfl, by decide, by decide⟩,
    oversize_frame_policy.2 4 ⟨0, 0⟩ ⟨2048, 3, true⟩ ⟨100, 5, true⟩ rfl
      (by decide) rfl (by decide)⟩

/-- **C10** A frame larger than the configured maximum plus 1024 bytes
exceeds the transport read limit (`SetReadLimit(maxMessageSize + 1024)`):
the read fails, the inbound task exits without any error envelope for that
frame, and the deferred teardown unregisters the connection and closes the
transport. -/
theorem read_limit_teardown (maxB limit : Nat) (st : RL) (f : Frame)
    (fs : List Frame) (h : maxB + 1024 < f.size) :
    readPump maxB limit st (f :: fs) = [Event.unregister, Event.close] := by
  rw [readPump, if_pos h]

/-- Witness for `read_limit_teardown`: a 3000-byte frame with a 1024-byte
maximum. -/
theorem read_limit_teardown_witness :
    1024 + 1024 < 3000 ∧
    readPump 1024 4 ⟨0, 0⟩ [⟨3000, 3, true⟩, ⟨10, 5, true⟩] =
      [Event.unregister, Event.close] :=
  ⟨by decide,
    read_limit_teardown 1024 4 ⟨0, 0⟩ ⟨3000, 3, true⟩ [⟨10, 5, true⟩]
      (by decide)⟩

end Hub

namespace Token

/-!
## `pkg/token/token.go`: the AES-GCM sealed token manager

AES-GCM (`crypto/cipher`, external library) is embedded as an idealized
authenticated encryption: the sealed blob is `nonce ++ plaintext ++ [tag]`
where the tag is a one-byte authenticator over key, nonce and plaintext.
Confidentiality is not modelled (the claims under verification concern
round-trips and tamper detection only); the authenticity guarantee —
any modification of the blob fails `gcm.Open` — is what GCM provides with
overwhelming probability and what the model provides exactly for
single-byte changes.  The base64url transport encoding of the blob is a
bijection on byte strings and is omitted.  `json.Marshal` of
`SessionToken` is embedded as an injective length-prefixed byte
serialization.  Strings are byte lists; all byte values are `< 256`.
-/

/-- `token.SessionToken`: id (bytes of the hex string of 12 random bytes)
and Unix-seconds issue timestamp. -/
structure SessionToken where
  id : List Nat
  timestamp : Nat
  deriving DecidableEq, Repr

/-- `token.TokenManager`: id → stored token map, server key, timeout in
seconds.  The cleanup goroutine is not part of the claims below. -/
structure TokenManager where
  tokens : List (List Nat × SessionToken)
  privateKey : List Nat
  timeout : Nat
  deriving DecidableEq, Repr

/-- Go map lookup `tm.tokens[id]`. -/
def lookupTok (k : List Nat) :
    List (List Nat × SessionToken) → Option SessionToken
  | [] => none
  | (k', v) :: rest => if k' = k then some v else lookupTok k rest

/-- Go map assignment `tm.tokens[token.ID] = token`. -/
def insertTok (k : List Nat) (v : SessionToken) :
    List (List Nat × SessionToken) → List (List Nat × SessionToken)
  | [] => [(k, v)]
  | (k', v') :: rest =>
      if k' = k then (k, v) :: rest else (k', v') :: insertTok k v rest

/-- Little-endian 8-byte serialization of the Unix timestamp (stands for
the JSON number). -/
def toBytes8 (n : Nat) : List Nat :=
  [n % 256, n / 256 % 256, n / 65536 % 256, n / 16777216 % 256,
   n / 4294967296 % 256, n / 1099511627776 % 256,
   n / 281474976710656 % 256, n / 72057594037927936 % 256]

/-- Inverse of `toBytes8`. -/
def fromBytes8 : List Nat → Nat
  | [b0, b1, b2, b3, b4, b5, b6, b7] =>
      b0 + 256 * b1 + 65536 * b2 + 16777216 * b3 + 4294967296 * b4 +
        1099511627776 * b5 + 281474976710656 * b6 +
        72057594037927936 * b7
  | _ => 0

/-- `json.Marshal` of a `SessionToken`, as an injective length-prefixed
byte serialization. -/
def encodeToken (t : SessionToken) : List Nat :=
  t.id.length :: (t.id ++ toBytes8 t.timestamp)

/-- `json.Unmarshal` into a `SessionToken`. -/
def decodeToken : List Nat → Option SessionToken
  | [] => none
  | l :: rest =>
      if rest.length = l + 8 then
        some ⟨rest.take l, fromBytes8 (rest.drop l)⟩
      else none

/-- `gcm.NonceSize()` for AES-GCM. -/
def nonceSize : Nat := 12

/-- One-byte authenticator of the idealized AEAD: sensitive to any
single-byte change of nonce or payload. -/
def tag (key nonce payload : List Nat) : Nat :=
  (key ++ nonce ++ payload).sum % 256

/-- `gcm.Seal(nonce, nonce, plaintext, nil)`: nonce, plaintext, tag. -/
def gcmSeal (key nonce payload : List Nat) : List Nat :=
  nonce ++ (payload ++ [tag key nonce payload])

/-- `gcm.Open` preceded by the `len(ciphertext) < nonceSize` guard of
`decryptToken`: split off the nonce and check the authenticator. -/
def openSeal (key ct : List Nat) : Option (List Nat) :=
  if ct.length < nonceSize + 1 then none
  else
    let nonce := ct.take nonceSize
    let rest := ct.drop nonceSize
    let payload := rest.dropLast
    if rest.getLastD 0 = tag key nonce payload then some payload else none

/-- `token.encryptToken`: marshal then seal. -/
def encryptToken (t : SessionToken) (privateKey nonce : List Nat) :
    List Nat :=
  gcmSeal privateKey nonce (encodeToken t)

/-- `token.decryptToken`: open the seal then unmarshal. -/
def decryptToken (encrypted privateKey : List Nat) : Option SessionToken :=
  match openSeal privateKey encrypted with
  | none => none
  | some plaintext => decodeToken plaintext

/-- One hex character of `hex.EncodeToString`. -/
def hexDigit (n : Nat) : Nat := if n < 10 then 48 + n else 87 + n

/-- `hex.EncodeToString` on the random id bytes. -/
def hexEncode : List Nat → List Nat
  | [] => []
  | b :: rest => hexDigit (b / 16) :: hexDigit (b % 16) :: hexEncode rest

/-- `TokenManager.GenerateToken`: the 12 random id bytes and the fresh GCM
nonce are explicit inputs (drawn from `crypto/rand` in the source), `now`
is `time.Now().Unix()`.  Returns the sealed blob, the issued token, and
the updated manager. -/
def generateToken (tm : TokenManager) (idBytes nonce : List Nat)
    (now : Nat) : List Nat × SessionToken × TokenManager :=
  let tokenID := hexEncode idBytes
  let token : SessionToken := ⟨tokenID, now⟩
  let tm' := { tm with tokens := insertTok tokenID token tm.tokens }
  (encryptToken token tm.privateKey nonce, token, tm')

/-- `TokenManager.ValidateToken`: open the blob (failure ⇒ generic
"invalid token"), look the id up (absent ⇒ "token not found"), compare the
age with the timeout (`time.Since(issue) > timeout` ⇒ "token expired"),
otherwise return the stored record. -/
def validateToken (tm : TokenManager) (encrypted : List Nat) (now : Nat) :
    Except String SessionToken :=
  match decryptToken encrypted tm.privateKey with
  | none => Except.error "invalid token"
  | some token =>
      match lookupTok token.id tm.tokens with
      | none => Except.error "token not found"
      | some storedToken =>
          if tm.timeout < now - storedToken.timestamp then
            Except.error "token expired"
          else Except.ok storedToken

theorem fromBytes8_toBytes8 {n : Nat} (h : n < 18446744073709551616) :
    fromBytes8 (toBytes8 n) = n := by
  simp only [toBytes8, fromBytes8]
  omega

theorem decode_encode (t : SessionToken)
    (h : t.timestamp < 18446744073709551616) :
    decodeToken (encodeToken t) = some t := by
  rw [encodeToken,
    show decodeToken (t.id.length :: (t.id ++ toBytes8 t.timestamp)) =
      if (t.id ++ toBytes8 t.timestamp).length = t.id.length + 8 then
        some ⟨(t.id ++ toBytes8 t.timestamp).take t.id.length,
          fromBytes8 ((t.id ++ toBytes8 t.timestamp).drop t.id.length)⟩
      else none from rfl]
  rw [if_pos (by simp [toBytes8]), List.take_left, List.drop_left,
    fromBytes8_toBytes8 h]

theorem openSeal_gcmSeal (key nonce payload : List Nat)
    (hn : nonce.length = nonceSize) :
    openSeal key (gcmSeal key nonce payload) = some payload := by
  have hlen : (gcmSeal key nonce payload).length =
      nonceSize + (payload.length + 1) := by
    simp [gcmSeal, hn]
  simp only [openSeal]
  rw [if_neg (by omega)]
  simp [gcmSeal, List.take_left' hn, List.drop_left' hn,
    List.dropLast_concat, List.getLastD_concat]

theorem lookupTok_insertTok (k : List Nat) (v : SessionToken)
    (l : List (List Nat × SessionToken)) :
    lookupTok k (insertTok k v l) = some v := by
  induction l with
  | nil => simp [insertTok, lookupTok]
  | cons kv rest ih =>
    obtain ⟨k', v'⟩ := kv
    by_cases hk : k' = k
    · simp [insertTok, hk, lookupTok]
    · simp [insertTok, hk, lookupTok, ih]

theorem sum_set (l : List Nat) (i b : Nat) (h : i < l.length) :
    (l.set i b).sum + l.getD i 0 = l.sum + b := by
  induction l generalizing i with
  | nil => simp at h
  | cons x xs ih =>
    cases i with
    | zero => simp [List.getD]; omega
    | succ j =>
        have hj : j < xs.length := by simpa using h
        have := ih j hj
        simp only [List.set, List.sum_cons, List.getD_cons_succ]
        omega

/-- `gcm.Open` rejects a blob whose trailing byte is not the
authenticator of its nonce and payload. -/
theorem openSeal_append_ne (key nonce p : List Nat) (tv : Nat)
    (hn : nonce.length = nonceSize)
    (htag : tv ≠ tag key nonce p) :
    openSeal key (nonce ++ (p ++ [tv])) = none := by
  have hlen : (nonce ++ (p ++ [tv])).length = nonceSize + (p.length + 1) := by
    simp [hn]
  simp only [openSeal]
  rw [if_neg (by omega)]
  simp only [List.take_left' hn, List.drop_left' hn,
    List.dropLast_concat, List.getLastD_concat]
  rw [if_neg htag]

/-- Any single-byte change anywhere in a sealed blob breaks the
authenticator check. -/
theorem openSeal_set_ne (key nonce payload : List Nat) (i b' : Nat)
    (hn : nonce.length = nonceSize)
    (hlt : i < (gcmSeal key nonce payload).length)
    (hbyte : (gcmSeal key nonce payload).getD i 0 < 256)
    (hb' : b' < 256)
    (hne : b' ≠ (gcmSeal key nonce payload).getD i 0) :
    openSeal key ((gcmSeal key nonce payload).set i b') = none := by
  have hns : nonceSize = 12 := rfl
  have hg : gcmSeal key nonce payload =
      nonce ++ (payload ++ [tag key nonce payload]) := rfl
  have hlen : (gcmSeal key nonce payload).length =
      nonceSize + (payload.length + 1) := by simp [gcmSeal, hn]
  by_cases hA : i < nonceSize
  · have hset : (gcmSeal key nonce payload).set i b' =
        nonce.set i b' ++ (payload ++ [tag key nonce payload]) := by
      rw [hg]; exact List.set_append_left i b' (by omega)
    have hgd : (gcmSeal key nonce payload).getD i 0 = nonce.getD i 0 := by
      rw [hg]; exact List.getD_append _ _ 0 i (by omega)
    rw [hgd] at hbyte hne
    rw [hset]
    refine openSeal_append_ne key (nonce.set i b') payload _
      (by simpa [List.length_set] using hn) ?_
    have hs := sum_set nonce i b' (by omega)
    simp only [tag, List.sum_append]
    omega
  · by_cases hB : i - nonceSize < payload.length
    · have hset : (gcmSeal key nonce payload).set i b' =
          nonce ++ (payload.set (i - nonceSize) b' ++
            [tag key nonce payload]) := by
        rw [hg, List.set_append_right i b' (by omega)]
        rw [List.set_append_left _ b' (by omega : i - nonce.length <
          payload.length), hn]
      have hgd : (gcmSeal key nonce payload).getD i 0 =
          payload.getD (i - nonceSize) 0 := by
        rw [hg, List.getD_append_right _ _ 0 i (by omega),
          List.getD_append _ _ 0 (i - nonce.length)
            (by omega : i - nonce.length < payload.length), hn]
      rw [hgd] at hbyte hne
      rw [hset]
      refine openSeal_append_ne key nonce (payload.set (i - nonceSize) b') _
        hn ?_
      have hs := sum_set payload (i - nonceSize) b' (by omega)
      simp only [tag, List.sum_append]
      omega
    · have hC : i - nonceSize = payload.length := by omega
      have hset : (gcmSeal key nonce payload).set i b' =
          nonce ++ (payload ++ [b']) := by
        rw [hg, List.set_append_right i b' (by omega)]
        rw [List.set_append_right _ b'
          (by omega : payload.length ≤ i - nonce.length)]
        have h0 : i - nonce.length - payload.length = 0 := by omega
        rw [h0]
        rfl
      have hgd : (gcmSeal key nonce payload).getD i 0 =
          tag key nonce payload := by
        rw [hg, List.getD_append_right _ _ 0 i (by omega),
          List.getD_append_right _ _ 0 (i - nonce.length)
            (by omega : payload.length ≤ i - nonce.length)]
        have h0 : i - nonce.length - payload.length = 0 := by omega
        rw [h0]; rfl
      rw [hgd] at hne
      rw [hset]
      exact openSeal_append_ne key nonce payload b' hn hne

theorem dropLast_append_getLastD {l : List Nat} (h : l ≠ []) :
    l.dropLast ++ [l.getLastD 0] = l := by
  have hg : l.getLastD 0 = l.getLast h := by
    rw [List.getLastD_eq_getLast?, List.getLast?_eq_getLast l h]; rfl
  rw [hg]
  exact List.dropLast_append_getLast h

/-- Every blob that opens correctly is a sealed blob: nonce, payload, and
the matching authenticator. -/
theorem openSeal_decomp {key ct payload : List Nat}
    (h : openSeal key ct = some payload) :
    ct = gcmSeal key (ct.take nonceSize) payload ∧
      (ct.take nonceSize).length = nonceSize := by
  rw [openSeal] at h
  by_cases hlen : ct.length < nonceSize + 1
  · rw [if_pos hlen] at h; cases h
  · rw [if_neg hlen] at h
    simp only at h
    by_cases htag : (ct.drop nonceSize).getLastD 0 =
        tag key (ct.take nonceSize) (ct.drop nonceSize).dropLast
    · rw [if_pos htag] at h
      have hpl : (ct.drop nonceSize).dropLast = payload := by
        injection h
      have hrest : ct.drop nonceSize ≠ [] := by
        intro hnil
        have := List.length_drop nonceSize ct
        rw [hnil] at this
        simp at this
        omega
      have htk : (ct.take nonceSize).length = nonceSize := by
        rw [List.length_take]; omega
      refine ⟨?_, htk⟩
      rw [gcmSeal, ← hpl, ← htag]
      rw [dropLast_append_getLastD hrest]
      exact (List.take_append_drop nonceSize ct).symm
    · rw [if_neg htag] at h; cases h

/-- **C3** `GenerateToken` immediately followed by `ValidateToken` on the
returned sealed blob succeeds and returns the stored record with the
issued id; and for every sealed blob that validates, flipping any single
byte of the blob makes `ValidateToken` fail with the generic "invalid
token" error. -/
theorem generate_validate_roundtrip_and_tamper
    (tm : TokenManager) (idBytes nonce : List Nat) (now : Nat)
    (hn : nonce.length = nonceSize) (hnow : now < 18446744073709551616)
    (tm2 : TokenManager) (blob : List Nat) (now2 : Nat) (r : SessionToken)
    (hval : validateToken tm2 blob now2 = Except.ok r)
    (hbytes : ∀ x ∈ blob, x < 256)
    (i b' : Nat) (hi : i < blob.length) (hb' : b' < 256)
    (hne : b' ≠ blob.getD i 0) :
    validateToken (generateToken tm idBytes nonce now).2.2
        (generateToken tm idBytes nonce now).1 now =
      Except.ok (generateToken tm idBytes nonce now).2.1
    ∧ (generateToken tm idBytes nonce now).2.1.id = hexEncode idBytes
    ∧ validateToken tm2 (blob.set i b') now2 =
        Except.error "invalid token" := by
  refine ⟨?_, rfl, ?_⟩
  · simp only [generateToken, validateToken, encryptToken, decryptToken]
    rw [openSeal_gcmSeal _ _ _ hn]
    simp only [decode_encode ⟨hexEncode idBytes, now⟩ hnow]
    simp only [lookupTok_insertTok]
    rw [if_neg (by omega)]
  · rcases hdec : decryptToken blob tm2.privateKey with _ | tok
    · rw [validateToken, hdec] at hval; cases hval
    · rw [decryptToken] at hdec
      rcases ho : openSeal tm2.privateKey blob with _ | payload
      · rw [ho] at hdec; cases hdec
      · obtain ⟨hct, htk⟩ := openSeal_decomp ho
        have hnone : openSeal tm2.privateKey (blob.set i b') = none := by
          rw [hct] at hi hbytes hne ⊢
          exact openSeal_set_ne tm2.privateKey (blob.take nonceSize)
            payload i b' htk hi
            (hbytes _ (by
              rw [List.getD_eq_getElem _ 0 hi]
              exact List.getElem_mem hi)) hb' hne
        rw [validateToken, decryptToken, hnone]

/-- Concrete manager and blob for the token witnesses: key `[7]`, id
`"a"` (byte 97), issue time 0, timeout 600 s. -/
def tmEdge : TokenManager :=
  { tokens := [([97], ⟨[97], 0⟩)], privateKey := [7], timeout := 600 }

/-- The sealed blob of the stored token of `tmEdge`. -/
def blobEdge : List Nat :=
  encryptToken ⟨[97], 0⟩ [7] [0, 0, 0, 0, 0, 0, 0, 0, 0, 0, 0, 0]

/-- Witness for `generate_validate_roundtrip_and_tamper` at concrete
inputs: a fresh generation over `tmEdge`, and a byte flip in position 0 of
the validating blob `blobEdge`. -/
theorem generate_validate_roundtrip_and_tamper_witness :
    (([0, 0, 0, 0, 0, 0, 0, 0, 0, 0, 0, 0] : List Nat).length = nonceSize ∧
      (77 : Nat) < 18446744073709551616 ∧
      validateToken tmEdge blobEdge 0 = Except.ok ⟨[97], 0⟩ ∧
      (∀ x ∈ blobEdge, x < 256) ∧ 0 < blobEdge.length ∧ (9 : Nat) < 256 ∧
      (9 : Nat) ≠ blobEdge.getD 0 0) ∧
    (validateToken (generateToken tmEdge [1, 2, 3, 4, 5, 6, 7, 8, 9, 10, 11, 12]
          [0, 0, 0, 0, 0, 0, 0, 0, 0, 0, 0, 0] 77).2.2
        (generateToken tmEdge [1, 2, 3, 4, 5, 6, 7, 8, 9, 10, 11, 12]
          [0, 0, 0, 0, 0, 0, 0, 0, 0, 0, 0, 0] 77).1 77 =
      Except.ok (generateToken tmEdge [1, 2, 3, 4, 5, 6, 7, 8, 9, 10, 11, 12]
          [0, 0, 0, 0, 0, 0, 0, 0, 0, 0, 0, 0] 77).2.1
    ∧ (generateToken tmEdge [1, 2, 3, 4, 5, 6, 7, 8, 9, 10, 11, 12]
          [0, 0, 0, 0, 0, 0, 0, 0, 0, 0, 0, 0] 77).2.1.id =
        hexEncode [1, 2, 3, 4, 5, 6, 7, 8, 9, 10, 11, 12]
    ∧ validateToken tmEdge (blobEdge.set 0 9) 0 =
        Except.error "invalid token") :=
  ⟨⟨rfl, by decide, rfl, by decide, by decide, by decide, by decide⟩,
    generate_validate_roundtrip_and_tamper tmEdge
      [1, 2, 3, 4, 5, 6, 7, 8, 9, 10, 11, 12]
      [0, 0, 0, 0, 0, 0, 0, 0, 0, 0, 0, 0] 77 rfl (by decide)
      tmEdge blobEdge 0 ⟨[97], 0⟩ rfl (by decide) 0 9 (by decide)
      (by decide) (by decide)⟩

/-- **C7 (amended)** For a presented blob that opens correctly:
id absent from the store ⇒ "token not found"; id present with age
strictly greater than the timeout ⇒ "token expired"; id present with age
at most the timeout (including age exactly equal to the timeout) ⇒ the
stored record is returned. -/
theorem validate_open_cases (tm : TokenManager) (blob : List Nat)
    (now : Nat) (tok : SessionToken)
    (hdec : decryptToken blob tm.privateKey = some tok) :
    (lookupTok tok.id tm.tokens = none →
      validateToken tm blob now = Except.error "token not found")
    ∧ (∀ st, lookupTok tok.id tm.tokens = some st →
        tm.timeout < now - st.timestamp →
        validateToken tm blob now = Except.error "token expired")
    ∧ (∀ st, lookupTok tok.id tm.tokens = some st →
        now - st.timestamp ≤ tm.timeout →
        validateToken tm blob now = Except.ok st) := by
  refine ⟨fun hl => ?_, fun st hl hexp => ?_, fun st hl hfresh => ?_⟩
  · rw [validateToken, hdec]
    simp only [hl]
  · rw [validateToken, hdec]
    simp only [hl]
    rw [if_pos hexp]
  · rw [validateToken, hdec]
    simp only [hl]
    rw [if_neg (by omega)]

/-- Witness for `validate_open_cases` at `tmEdge`, `blobEdge` with
`now = 601` (one second past the timeout). -/
theorem validate_open_cases_witness :
    decryptToken blobEdge tmEdge.privateKey = some ⟨[97], 0⟩ ∧
    ((lookupTok ([97] : List Nat) tmEdge.tokens = none →
      validateToken tmEdge blobEdge 601 = Except.error "token not found")
    ∧ (∀ st, lookupTok ([97] : List Nat) tmEdge.tokens = some st →
        tmEdge.timeout < 601 - st.timestamp →
        validateToken tmEdge blobEdge 601 = Except.error "token expired")
    ∧ (∀ st, lookupTok ([97] : List Nat) tmEdge.tokens = some st →
        601 - st.timestamp ≤ tmEdge.timeout →
        validateToken tmEdge blobEdge 601 = Except.ok st)) :=
  ⟨by decide, validate_open_cases tmEdge blobEdge 601 ⟨[97], 0⟩ (by decide)⟩

/-- **C7 counterexample** At age exactly equal to the configured timeout
the code returns the stored record (`time.Since(...) > tm.timeout` is
strict), contradicting the claim that age ≥ timeout is invalid: here the
id is present, the age is `600 - 0 = 600 ≥ timeout = 600`, and
`ValidateToken` succeeds. -/
theorem validate_age_eq_timeout_succeeds :
    validateToken tmEdge blobEdge 600 = Except.ok ⟨[97], 0⟩ ∧
    tmEdge.timeout ≤ 600 - (0 : Nat) := by
  exact ⟨rfl, by decide⟩

end Token

namespace TokenV

/-!
## The capacity-bounded `TokenManager` variant

Embeds the second `package token` in the repository: short base62 ids, an
id → Unix-timestamp map with an insertion-ordered `tokenOrder` list,
collision retry in `GenerateToken`, and FIFO eviction down to `maxTokens`.
`generateRandomID` draws from `crypto/rand`; the model takes the drawn ids
as an explicit sequence `ids : Nat → String` indexed by attempt (every
string drawn by the source has length `TokenLength = 8`, in particular it
is never empty).
-/

/-- `TokenLength`: characters per token id. -/
def TokenLength : Nat := 8

/-- `MaxTokens`: the hard limit used by `NewTokenManager`. -/
def MaxTokens : Nat := 10000

/-- `maxAttempts` in `GenerateToken`. -/
def maxAttempts : Nat := 100

/-- The variant `token.TokenManager`: id → timestamp map, FIFO insertion
order, timeout in seconds, and the `maxTokens` bound. -/
structure TokenManagerV where
  tokens : List (String × Nat)
  tokenOrder : List String
  timeout : Nat
  maxTokens : Nat
  deriving DecidableEq, Repr

/-- Go map lookup `tm.tokens[id]`. -/
def lookupV (k : String) : List (String × Nat) → Option Nat
  | [] => none
  | (k', v) :: rest => if k' = k then some v else lookupV k rest

/-- Go map membership `_, exists := tm.tokens[id]`. -/
def containsV (k : String) (l : List (String × Nat)) : Bool :=
  l.any fun x => x.1 = k

/-- Go map assignment `tm.tokens[id] = ts`. -/
def insertV (k : String) (v : Nat) : List (String × Nat) → List (String × Nat)
  | [] => [(k, v)]
  | (k', v') :: rest =>
      if k' = k then (k, v) :: rest else (k', v') :: insertV k v rest

/-- Go map `delete(tm.tokens, id)`. -/
def eraseV (k : String) : List (String × Nat) → List (String × Nat)
  | [] => []
  | (k', v') :: rest =>
      if k' = k then rest else (k', v') :: eraseV k rest

/-- The collision-retry loop of `GenerateToken`: on attempt `i` with
`fuel` attempts left, draw `ids i`; stop early on a fresh id.  The Go loop
variable `tokenID` keeps the draw of the final attempt even when it
collides, so exhaustion returns the last (colliding) draw, not `""`. -/
def pickID (tokens : List (String × Nat)) (ids : Nat → String) :
    Nat → Nat → String
  | _, 0 => ""
  | i, 1 => ids i
  | i, fuel + 2 =>
      if containsV (ids i) tokens then pickID tokens ids (i + 1) (fuel + 1)
      else ids i

/-- The eviction loop `for len(tm.tokens) > tm.maxTokens { … }`: pop the
FIFO head and delete it from the map.  The source would panic on an empty
`tokenOrder` with the map still over the limit; that branch returns the
state unchanged and is proved unreachable from well-formed states. -/
def enforceLimit (max : Nat) : List String → List (String × Nat) →
    List (String × Nat) × List String
  | [], tokens => (tokens, [])
  | o :: rest, tokens =>
      if tokens.length ≤ max then (tokens, o :: rest)
      else enforceLimit max rest (eraseV o tokens)

/-- The variant `TokenManager.GenerateToken`: retry the random id up to
`maxAttempts` times on collision, reject an empty id, store the id with
the current Unix time, append it to the FIFO order, then evict oldest
entries while over `maxTokens`. -/
def generateTokenV (tm : TokenManagerV) (ids : Nat → String) (now : Nat) :
    Except String (String × TokenManagerV) :=
  let tokenID := pickID tm.tokens ids 0 maxAttempts
  if tokenID = "" then
    Except.error "failed to generate unique token after 100 attempts"
  else
    let tokens1 := insertV tokenID now tm.tokens
    let order1 := tm.tokenOrder ++ [tokenID]
    let res := enforceLimit tm.maxTokens order1 tokens1
    Except.ok (tokenID, { tm with tokens := res.1, tokenOrder := res.2 })

/-- The variant `TokenManager.ValidateToken`: absent ⇒ "token not found";
age strictly above the timeout ⇒ "token expired"; otherwise valid. -/
def validateTokenV (tm : TokenManagerV) (tokenID : String) (now : Nat) :
    Except String Unit :=
  match lookupV tokenID tm.tokens with
  | none => Except.error "token not found"
  | some timestamp =>
      if tm.timeout < now - timestamp then Except.error "token expired"
      else Except.ok ()

/-- Managers reachable from a fresh (empty) manager by `GenerateToken`
calls.  `NewTokenManager` always sets `maxTokens := MaxTokens`; the bound
is kept parametric, matching the `maxTokens` field it configures. -/
inductive ReachableV : TokenManagerV → Prop where
  | init (timeout maxTokens : Nat) :
      ReachableV ⟨[], [], timeout, maxTokens⟩
  | gen {tm tm' : TokenManagerV} (ids : Nat → String) (now : Nat)
      (id : String) : ReachableV tm →
      generateTokenV tm ids now = Except.ok (id, tm') → ReachableV tm'

/-- The id keys of the token map. -/
def keysV (tokens : List (String × Nat)) : List String :=
  tokens.map Prod.fst

/-- Well-formedness: map keys are pairwise distinct, and every key occurs
in the FIFO order list. -/
def WFV (tm : TokenManagerV) : Prop :=
  (keysV tm.tokens).Nodup ∧ ∀ k ∈ keysV tm.tokens, k ∈ tm.tokenOrder

end TokenV

namespace TokenV

theorem containsV_iff {k : String} {l : List (String × Nat)} :
    containsV k l = true ↔ k ∈ keysV l := by
  simp [containsV, keysV, List.any_eq_true, List.mem_map]

theorem keysV_cons (x : String × Nat) (xs : List (String × Nat)) :
    keysV (x :: xs) = x.1 :: keysV xs := rfl

theorem keysV_insertV_mem {k : String} (v : Nat) {l : List (String × Nat)}
    (h : k ∈ keysV l) : keysV (insertV k v l) = keysV l := by
  induction l with
  | nil => simp [keysV] at h
  | cons x xs ih =>
    obtain ⟨k', v'⟩ := x
    by_cases hk : k' = k
    · subst hk
      rw [show insertV k' v ((k', v') :: xs) = (k', v) :: xs from by
        simp [insertV]]
      rfl
    · have h' : k ∈ keysV xs := by
        rcases List.mem_cons.mp h with h0 | h0
        · exact absurd h0.symm hk
        · exact h0
      rw [show insertV k v ((k', v') :: xs) = (k', v') :: insertV k v xs
        from by simp [insertV, hk]]
      show k' :: keysV (insertV k v xs) = k' :: keysV xs
      rw [ih h']

theorem keysV_insertV_not_mem {k : String} (v : Nat)
    {l : List (String × Nat)} (h : k ∉ keysV l) :
    keysV (insertV k v l) = keysV l ++ [k] := by
  induction l with
  | nil => simp [insertV, keysV]
  | cons x xs ih =>
    obtain ⟨k', v'⟩ := x
    have hk : k' ≠ k := by
      intro he
      apply h
      show k ∈ k' :: keysV xs
      simp [he]
    have h' : k ∉ keysV xs := fun hm =>
      h (show k ∈ k' :: keysV xs from List.mem_cons_of_mem k' hm)
    rw [show insertV k v ((k', v') :: xs) = (k', v') :: insertV k v xs
      from by simp [insertV, hk]]
    show k' :: keysV (insertV k v xs) = (k' :: keysV xs) ++ [k]
    rw [ih h', List.cons_append]

theorem mem_keysV_insertV {k k0 : String} {v : Nat}
    {l : List (String × Nat)} (h : k ∈ keysV (insertV k0 v l)) :
    k ∈ keysV l ∨ k = k0 := by
  by_cases hc : k0 ∈ keysV l
  · rw [keysV_insertV_mem v hc] at h; exact Or.inl h
  · rw [keysV_insertV_not_mem v hc] at h
    rcases List.mem_append.mp h with h | h
    · exact Or.inl h
    · exact Or.inr (by simpa using h)

theorem keysV_eraseV_sublist (o : String) (l : List (String × Nat)) :
    (keysV (eraseV o l)).Sublist (keysV l) := by
  induction l with
  | nil => simp [eraseV, keysV]
  | cons x xs ih =>
    obtain ⟨k', v'⟩ := x
    by_cases hk : k' = o
    · rw [show eraseV o ((k', v') :: xs) = xs from by simp [eraseV, hk]]
      exact (List.sublist_cons_self k' (keysV xs))
    · rw [show eraseV o ((k', v') :: xs) = (k', v') :: eraseV o xs
        from by simp [eraseV, hk]]
      exact ih.cons₂ k'

theorem mem_keysV_eraseV {k o : String} {l : List (String × Nat)}
    (hnd : (keysV l).Nodup) (h : k ∈ keysV (eraseV o l)) :
    k ∈ keysV l ∧ k ≠ o := by
  induction l with
  | nil => simp [eraseV, keysV] at h
  | cons x xs ih =>
    obtain ⟨k', v'⟩ := x
    have hnd' : k' ∉ keysV xs ∧ (keysV xs).Nodup := by
      simpa [keysV_cons, List.nodup_cons] using hnd
    by_cases hk : k' = o
    · rw [show eraseV o ((k', v') :: xs) = xs from by simp [eraseV, hk]] at h
      refine ⟨List.mem_cons_of_mem k' h, fun he => ?_⟩
      exact hnd'.1 (by rw [hk, ← he]; exact h)
    · rw [show eraseV o ((k', v') :: xs) = (k', v') :: eraseV o xs
        from by simp [eraseV, hk]] at h
      rcases List.mem_cons.mp h with h0 | h0
      · exact ⟨by rw [keysV_cons, h0]; exact List.mem_cons_self k' _,
          h0 ▸ hk⟩
      · obtain ⟨hm, hne⟩ := ih hnd'.2 h0
        exact ⟨List.mem_cons_of_mem k' hm, hne⟩

theorem enforceLimit_spec (max : Nat) :
    ∀ (order : List String) (tokens : List (String × Nat)),
      (keysV tokens).Nodup →
      (∀ k ∈ keysV tokens, k ∈ order) →
      (enforceLimit max order tokens).1.length ≤ max ∧
      (keysV (enforceLimit max order tokens).1).Nodup ∧
      ∀ k ∈ keysV (enforceLimit max order tokens).1,
        k ∈ (enforceLimit max order tokens).2 := by
  intro order
  induction order with
  | nil =>
      intro tokens hnd hsub
      have hkeys : keysV tokens = [] :=
        List.eq_nil_iff_forall_not_mem.mpr fun k hk => by
          simpa using hsub k hk
      have hlen : tokens.length = 0 := by
        have := congrArg List.length hkeys
        simpa [keysV] using this
      simp [enforceLimit, hlen, hkeys]
  | cons o rest ih =>
      intro tokens hnd hsub
      by_cases hle : tokens.length ≤ max
      · rw [show enforceLimit max (o :: rest) tokens = (tokens, o :: rest)
          from by simp [enforceLimit, hle]]
        exact ⟨hle, hnd, hsub⟩
      · have hnd' : (keysV (eraseV o tokens)).Nodup :=
          hnd.sublist (keysV_eraseV_sublist o tokens)
        have hsub' : ∀ k ∈ keysV (eraseV o tokens), k ∈ rest := by
          intro k hk
          obtain ⟨hmem, hne⟩ := mem_keysV_eraseV hnd hk
          rcases List.mem_cons.mp (hsub k hmem) with h | h
          · exact absurd h hne
          · exact h
        simpa only [enforceLimit, if_neg hle] using
          ih (eraseV o tokens) hnd' hsub'

theorem generateTokenV_wf {tm tm' : TokenManagerV} {ids : Nat → String}
    {now : Nat} {id : String} (hwf : WFV tm)
    (hgen : generateTokenV tm ids now = Except.ok (id, tm')) :
    WFV tm' ∧ tm'.tokens.length ≤ tm'.maxTokens := by
  simp only [generateTokenV] at hgen
  by_cases hid : pickID tm.tokens ids 0 maxAttempts = ""
  · rw [if_pos hid] at hgen; cases hgen
  · rw [if_neg hid] at hgen
    simp only [Except.ok.injEq, Prod.mk.injEq] at hgen
    obtain ⟨-, htm⟩ := hgen
    have hnd1 : (keysV (insertV (pickID tm.tokens ids 0 maxAttempts) now
        tm.tokens)).Nodup := by
      by_cases hc : pickID tm.tokens ids 0 maxAttempts ∈ keysV tm.tokens
      · rw [keysV_insertV_mem now hc]; exact hwf.1
      · rw [keysV_insertV_not_mem now hc]
        simp [List.nodup_append, hwf.1, hc]
    have hsub1 : ∀ k ∈ keysV (insertV (pickID tm.tokens ids 0 maxAttempts)
        now tm.tokens),
        k ∈ tm.tokenOrder ++ [pickID tm.tokens ids 0 maxAttempts] := by
      intro k hk
      rcases mem_keysV_insertV hk with h | h
      · exact List.mem_append_left _ (hwf.2 k h)
      · exact List.mem_append_right _ (by simp [h])
    obtain ⟨hlen, hnd2, hsub2⟩ := enforceLimit_spec tm.maxTokens
      (tm.tokenOrder ++ [pickID tm.tokens ids 0 maxAttempts])
      (insertV (pickID tm.tokens ids 0 maxAttempts) now tm.tokens)
      hnd1 hsub1
    rw [← htm]
    exact ⟨⟨hnd2, hsub2⟩, hlen⟩

/-- Well-formedness and the capacity bound hold in every reachable token
manager. -/
theorem reachableV_wf_bound {tm : TokenManagerV} (hr : ReachableV tm) :
    WFV tm ∧ tm.tokens.length ≤ tm.maxTokens := by
  induction hr with
  | init t m => exact ⟨⟨by simp [keysV], by simp [keysV]⟩, by simp⟩
  | gen ids now id hr hgen ih => exact generateTokenV_wf ih.1 hgen

/-- A fresh manager configured with capacity 3. -/
def tmCap3 : TokenManagerV := ⟨[], [], 600, 3⟩

/-- The manager after one successful `GenerateToken` (identity on
error). -/
def genOk (tm : TokenManagerV) (ids : Nat → String) (now : Nat) :
    TokenManagerV :=
  match generateTokenV tm ids now with
  | Except.ok x => x.2
  | Except.error _ => tm

/-- Capacity-3 manager after generating T1, T2, T3, T4 in order. -/
def tmScenario : TokenManagerV :=
  genOk (genOk (genOk (genOk tmCap3 (fun _ => "AAAAAAT1") 100)
    (fun _ => "AAAAAAT2") 100) (fun _ => "AAAAAAT3") 100)
    (fun _ => "AAAAAAT4") 100

/-- **C4** After every `GenerateToken` call on a reachable manager the
stored-token count never exceeds the configured `maxTokens` (oldest
entries are evicted, FIFO, and eviction is not an error); with capacity 3,
generating T1, T2, T3, T4 in order evicts T1 (`ValidateToken` reports
"token not found") while T2, T3, T4 still validate. -/
theorem token_store_capacity_fifo {tm : TokenManagerV}
    (hr : ReachableV tm) :
    tm.tokens.length ≤ tm.maxTokens
    ∧ validateTokenV tmScenario "AAAAAAT1" 100 =
        Except.error "token not found"
    ∧ validateTokenV tmScenario "AAAAAAT2" 100 = Except.ok ()
    ∧ validateTokenV tmScenario "AAAAAAT3" 100 = Except.ok ()
    ∧ validateTokenV tmScenario "AAAAAAT4" 100 = Except.ok ()
    ∧ tmScenario.tokens.length ≤ tmScenario.maxTokens :=
  ⟨(reachableV_wf_bound hr).2, rfl, rfl, rfl, rfl, by decide⟩

/-- Witness for `token_store_capacity_fifo` at the fresh capacity-3
manager. -/
theorem token_store_capacity_fifo_witness :
    ReachableV tmCap3 ∧
    (tmCap3.tokens.length ≤ tmCap3.maxTokens
    ∧ validateTokenV tmScenario "AAAAAAT1" 100 =
        Except.error "token not found"
    ∧ validateTokenV tmScenario "AAAAAAT2" 100 = Except.ok ()
    ∧ validateTokenV tmScenario "AAAAAAT3" 100 = Except.ok ()
    ∧ validateTokenV tmScenario "AAAAAAT4" 100 = Except.ok ()
    ∧ tmScenario.tokens.length ≤ tmScenario.maxTokens) :=
  ⟨ReachableV.init 600 3,
    token_store_capacity_fifo (ReachableV.init 600 3)⟩

/-- A store already holding the only id the random source will ever
draw. -/
def tmCollide : TokenManagerV :=
  ⟨[("AAAAAAAA", 0)], ["AAAAAAAA"], 600, 10000⟩

/-- **C9 evidence** When all `maxAttempts` draws collide with the store,
`GenerateToken` does not return the exhaustion error: the loop leaves the
last (colliding) draw in `tokenID`, the `tokenID == ""` guard never
fires (`generateRandomID` always returns 8 characters), and the call
succeeds, overwriting the stored record and appending a duplicate FIFO
entry. -/
theorem generate_collision_exhaustion_no_error :
    generateTokenV tmCollide (fun _ => "AAAAAAAA") 5 =
      Except.ok ("AAAAAAAA",
        { tokens := [("AAAAAAAA", 5)],
          tokenOrder := ["AAAAAAAA", "AAAAAAAA"],
          timeout := 600, maxTokens := 10000 }) := rfl

end TokenV
